import Mathlib

/-!
Verification of the libslax "ParrotDB" core against its specification.

This file gives a shallow embedding, in Lean 4, of the parts of the source
that the claims concern:

* the short-string fast path of the immutable-string table
  (`src/parrotdb/pacommon.h`: `pa_short_string_atom`, `pa_short_string`,
  `pa_short_strings`);
* the Patricia trie lookup path (`pa_pat.h` in `src/unnamed/part_001`:
  `pa_pat_get_inline`, `pat_key_test`, `pa_pat_makebit`,
  `pa_pat_length_to_bit`, `pa_pat_lookup_geq`);
* the rulebook compiler (`xi_rules.c` in `src/unnamed/part_001`:
  `xi_rulebook_prep_cb`, `xi_rule_bitmap_add`) and the rule-lookup stub
  `xi_rulebook_find`.

Machine integers (`uint8_t`, `uint16_t`, `pa_atom_t = uint32_t`) are
modelled as `Nat`; wherever a claim depends on the width (the 16-bit bit
index of the trie) the bound appears as an explicit hypothesis or an
explicit `% 65536`.  C strings are `List Nat` of byte values; reading the
NUL terminator of an empty string is modelled by `List.headD _ 0`.
Pointers that may be NULL are `Option`; a dereference of a NULL pointer is
made visible as a dedicated result constructor rather than being silently
defined.

The file is laid out with all definitions first, followed by the lemmas
and the claim theorems.
-/

/-! ## Definitions: short strings (`src/parrotdb/pacommon.h`)

The allocator avoids interning strings of length zero or one: atom
`1 + byte` stands for the one-byte string `byte`, and atom 1 for the empty
string.  `pa_short_strings` is a 512-byte static table; its initialisation
is not among the source files, so the table contents are modelled from the
spec.
-/

/-- `PA_SHORT_STRINGS_MIN` of `pacommon.h`. -/
def PA_SHORT_STRINGS_MIN : Nat := 1

/-- `PA_SHORT_STRINGS_MAX` of `pacommon.h`. -/
def PA_SHORT_STRINGS_MAX : Nat := 256

/-- Modelled from the spec: the initialisation of the extern 512-byte array
`char pa_short_strings[PA_SHORT_STRINGS_MAX * 2]` is not among the source
files; per the spec (§4.3) it is a "512-byte static table holding each
single byte followed by NUL", i.e. byte `2*k` holds `k` and byte `2*k+1`
holds 0. -/
def pa_short_strings : List Nat :=
  (List.range (PA_SHORT_STRINGS_MAX * 2)).map (fun i => if i % 2 = 0 then i / 2 else 0)

/-- `pa_short_string_atom` (`pacommon.h:142`): `PA_SHORT_STRINGS_MIN + *string`.
A C string is a byte list; `*string` on the empty string reads the NUL
terminator, hence `headD s 0`. -/
def pa_short_string_atom (s : List Nat) : Nat :=
  PA_SHORT_STRINGS_MIN + s.headD 0

/-- `pa_short_string` (`pacommon.h:148`): the pointer
`&pa_short_strings[(atom - PA_SHORT_STRINGS_MIN) << 1]`, i.e. the suffix of
the table starting at that index. -/
def pa_short_string (atom : Nat) : List Nat :=
  pa_short_strings.drop ((atom - PA_SHORT_STRINGS_MIN) <<< 1)

/-- The bytes a C consumer reads from a `char *`: everything up to the
first NUL. -/
def cstringOf (bytes : List Nat) : List Nat :=
  bytes.takeWhile (fun b => b ≠ 0)

/-! ## Definitions: Patricia trie (`pa_pat.h` in `src/unnamed/part_001`)

A trie is a root atom plus a fixed pool of nodes (`pp_nodes`) and a key
function (`pp_key_func`) mapping a data atom to its key bytes.  The node
pool is modelled as a list indexed by atom: `pa_fixed_atom_addr` returns
NULL both for atom 0 and for out-of-range atoms (spec §4.2/§8:
`P.addr(0) == null`, out-of-range atoms return null).  The 16-bit fields
`ppn_length` and `ppn_bit` are `Nat`s; the width enters through the
`BitsBounded` hypothesis below.
-/

/-- `pa_pat_node_t` (`part_001:402`). -/
structure PatNode where
  ppn_length : Nat
  ppn_bit : Nat
  ppn_left : Nat
  ppn_right : Nat
  ppn_data : Nat
deriving DecidableEq

/-- `pa_pat_t` together with its `pa_pat_info_t` (`part_001:428,437`):
`root` is `pp_root = pp_infop->ppi_root`, `pp_key_bytes` is
`pp_infop->ppi_key_bytes`, `nodes` is the fixed pool `pp_nodes`, and
`keyOf` is `pp_key_func` applied to a data atom. -/
structure PatTrie where
  root : Nat
  pp_key_bytes : Nat
  nodes : List (Option PatNode)
  keyOf : Nat → List Nat

/-- `pa_pat_node` (`part_001:477`): turn an atom into a node pointer via
`pa_fixed_atom_addr`, which yields NULL for the null atom and for atoms
outside the pool. -/
def pa_pat_node (t : PatTrie) (atom : Nat) : Option PatNode :=
  if atom = 0 then none else t.nodes.getD atom none

/-- `pa_pat_key` (`part_001:895`): `root->pp_key_func(root, node->ppn_data)`. -/
def pa_pat_key (t : PatTrie) (node : PatNode) : List Nat :=
  t.keyOf node.ppn_data

/-- `PA_PAT_NOBIT` (`part_001:881`). -/
def PA_PAT_NOBIT : Nat := 0

/-- `PA_PAT_MAXKEY` (`part_001:414`): the maximum length of a key, in bytes. -/
def PA_PAT_MAXKEY : Nat := 256

/-- `pa_pat_length_to_bit` (`part_001:955`): `((length - 1) << 8) | 0xff`
as a `uint16_t`, or `PA_PAT_NOBIT` when the length is 0. -/
def pa_pat_length_to_bit (length : Nat) : Nat :=
  if length ≠ 0 then (((length - 1) <<< 8) ||| 255) % 65536
  else PA_PAT_NOBIT

/-- `pat_key_test` (`part_001:923`): `key[bit >> 8] & (~bit & 0xff)`.
With `bit` a `uint16_t`, `~bit & 0xff` is the complement of the low byte,
i.e. `(bit ^^^ 255) &&& 255`. -/
def pat_key_test (key : List Nat) (bit : Nat) : Nat :=
  key.getD (bit >>> 8) 0 &&& ((bit ^^^ 255) &&& 255)

/-- Modelled from the spec: the extern array `pa_pat_hi_bit_table` is
defined in a source file that is not present; the spec (§4.4) numbers bits
within a byte with 0 the most significant, so entry `i` is the mask
`0x80 >> i`. -/
def pa_pat_hi_bit_table (i : Nat) : Nat := 128 >>> i

/-- `pa_pat_makebit` (`part_001:1181`):
`((offset & 0xff) << 8) | (~pa_pat_hi_bit_table[bit_in_byte] & 0xff)`. -/
def pa_pat_makebit (offset : Nat) (bit_in_byte : Nat) : Nat :=
  ((offset &&& 255) <<< 8) ||| ((pa_pat_hi_bit_table bit_in_byte ^^^ 255) &&& 255)

/-- Outcome of `pa_pat_get_inline` (`part_001:979`).  The C function either
aborts (zero key length), returns a node pointer or NULL (`ok`), or — on a
trie whose atoms do not resolve — dereferences a NULL node pointer in the
loop condition `while (bit < node->ppn_bit)` (`nullCondCrash`).  The dead
in-loop check `if (node == NULL) return NULL;` is given its own
constructor `nullBodyReturn` (in C it returns NULL) so that theorems can
speak about whether it ever executes.  `outOfFuel` marks exhaustion of the
step budget of the embedding's fuelled loop. -/
inductive GetResult where
  | aborted : GetResult
  | ok : Option PatNode → GetResult
  | nullCondCrash : GetResult
  | nullBodyReturn : GetResult
  | outOfFuel : GetResult
deriving DecidableEq

/-- The `while` loop of `pa_pat_get_inline` (`part_001:1000-1011`),
together with the final length-and-compare check (`part_001:1016-1020`),
as a fuelled recursion:

```
while (bit < node->ppn_bit) {            -- reads node: NULL => crash
    if (node == NULL) return NULL;       -- dead: node was just read
    bit = node->ppn_bit;
    if (bit < bit_len && pat_key_test(key, bit)) current = node->ppn_right;
    else current = node->ppn_left;
    node = pa_pat_node(root, current);
}
if (node->ppn_length != bit_len || bcmp(pa_pat_key(root, node), key, key_bytes))
    return NULL;
return node;
```

`bcmp(p, q, n)` compares `n` bytes, i.e. the `take key_bytes` prefixes. -/
def patWalkLoop (t : PatTrie) (key_bytes : Nat) (key : List Nat) (bit_len : Nat) :
    Nat → Nat → Nat → GetResult
  | 0, _, _ => .outOfFuel
  | fuel + 1, bit, cur =>
    match pa_pat_node t cur with
    | none => .nullCondCrash
    | some node =>
      if bit < node.ppn_bit then
        if (some node : Option PatNode).isNone then .nullBodyReturn
        else
          patWalkLoop t key_bytes key bit_len fuel node.ppn_bit
            (if node.ppn_bit < bit_len ∧ pat_key_test key node.ppn_bit ≠ 0 then node.ppn_right
             else node.ppn_left)
      else
        if node.ppn_length = bit_len ∧ (pa_pat_key t node).take key_bytes = key.take key_bytes
        then .ok (some node)
        else .ok none

/-- `pa_pat_get_inline` (`part_001:979`): abort on a zero key length,
return NULL on a null root, else run the walk from the root with
`bit = PA_PAT_NOBIT`. -/
def pa_pat_get_inline (t : PatTrie) (key_bytes : Nat) (key : List Nat) (fuel : Nat) :
    GetResult :=
  if key_bytes = 0 then .aborted
  else if t.root = 0 then .ok none
  else patWalkLoop t key_bytes key (pa_pat_length_to_bit key_bytes) fuel PA_PAT_NOBIT t.root

/-- The atoms whose pool slot the walk of `pa_pat_get_inline` reads, in
order, mirroring `patWalkLoop` step for step. -/
def patWalkAtoms (t : PatTrie) (key : List Nat) (bit_len : Nat) :
    Nat → Nat → Nat → List Nat
  | 0, _, _ => []
  | fuel + 1, bit, cur =>
    cur ::
      (match pa_pat_node t cur with
       | none => []
       | some node =>
         if bit < node.ppn_bit then
           patWalkAtoms t key bit_len fuel node.ppn_bit
             (if node.ppn_bit < bit_len ∧ pat_key_test key node.ppn_bit ≠ 0 then node.ppn_right
              else node.ppn_left)
         else [])

/-- Every node slot of the pool carries a 16-bit `ppn_bit` field. -/
def nodeBitsOk (o : Option PatNode) : Bool :=
  match o with
  | none => true
  | some n => n.ppn_bit < 65536

/-- The `uint16_t` width of `ppn_bit`, stated about the pool: every node
stored in the pool has `ppn_bit < 2^16`. -/
def BitsBounded (t : PatTrie) : Prop :=
  ∀ o ∈ t.nodes, nodeBitsOk o = true

/-- The trie state is intact along the lookup walk: if the root is
non-null, every atom the walk reads (root and the left/right children it
follows) resolves to a valid node in the pool. -/
def WalkValid (t : PatTrie) (key_bytes : Nat) (key : List Nat) : Prop :=
  t.root ≠ 0 →
    ∀ a ∈ patWalkAtoms t key (pa_pat_length_to_bit key_bytes) 65537 PA_PAT_NOBIT t.root,
      (pa_pat_node t a).isSome = true

instance decBitsBounded (t : PatTrie) : Decidable (BitsBounded t) :=
  inferInstanceAs (Decidable (∀ o ∈ t.nodes, nodeBitsOk o = true))

instance decWalkValid (t : PatTrie) (key_bytes : Nat) (key : List Nat) :
    Decidable (WalkValid t key_bytes key) :=
  inferInstanceAs (Decidable (t.root ≠ 0 → ∀ a ∈ _, _))

/-- The lookup algorithm as the specification words it (§4.4 Lookup):
walk from the root; at each node inspect its bit index `b`; if the walk's
previous bit index is not less than `b`, stop — an external node has been
reached; otherwise go right if `b` is below the key's bit length and the
key's bit `b` is set, else left; after stopping, verify that the node's
length equals the key's bit length and that the bytes compare equal, and
return the node, or null on mismatch. -/
def specWalk (t : PatTrie) (key_bytes : Nat) (key : List Nat) (bit_len : Nat) :
    Nat → Nat → Nat → Option PatNode
  | 0, _, _ => none
  | fuel + 1, prev, cur =>
    match pa_pat_node t cur with
    | none => none
    | some node =>
      if node.ppn_bit ≤ prev then
        if node.ppn_length = bit_len ∧ (pa_pat_key t node).take key_bytes = key.take key_bytes
        then some node
        else none
      else
        specWalk t key_bytes key bit_len fuel node.ppn_bit
          (if node.ppn_bit < bit_len ∧ pat_key_test key node.ppn_bit ≠ 0 then node.ppn_right
           else node.ppn_left)

/-- The spec's lookup (§4.4): "if root is null, return null", else walk. -/
def specGet (t : PatTrie) (key_bytes : Nat) (key : List Nat) (fuel : Nat) :
    Option PatNode :=
  if t.root = 0 then none
  else specWalk t key_bytes key (pa_pat_length_to_bit key_bytes) fuel PA_PAT_NOBIT t.root

/-- `pa_pat_lookup_geq` (`part_001:1157`): forwards the fixed key length
and `return_eq = TRUE` to `pa_pat_getnext`.  The body of `pa_pat_getnext`
is in a source file that is not present, so it is abstracted as a function
parameter. -/
def pa_pat_lookup_geq
    (pa_pat_getnext : PatTrie → Nat → List Nat → Bool → Option PatNode)
    (root : PatTrie) (key : List Nat) : Option PatNode :=
  pa_pat_getnext root root.pp_key_bytes key true

/-! ## Definitions: rulebook compiler (`xi_rules.c` in `src/unnamed/part_001`)

`xi_rulebook_prep` compiles a parsed rule script into a rulebook: a fixed
pool of rule records, a fixed pool of state records indexed by state id,
and a bitmap pool.  The compilation callback `xi_rulebook_prep_cb`
processes the script's element-open events.  The fixed pools are modelled
as total maps from atom to record (`pa_fixed_element` / allocation is
assumed to succeed for ids within `max_atoms`; the pools' own code is in
files that are not present).  Attribute extraction (`GET_ATTRIB`) and
`strtol` are modelled as already-decoded values carried on the event; a
missing attribute is `Option.none` (a NULL `const char *`).
-/

/-- `xi_rule_t` (fields as used by `xi_rules.c`): flags, action, use-tag
atom, new-state id, tag bitmap atom, next-rule atom. -/
structure XiRule where
  xr_flags : Nat
  xr_action : Nat
  xr_use_tag : Nat
  xr_new_state : Nat
  xr_bitmap : Nat
  xr_next : Nat
deriving DecidableEq

/-- `bzero(xrp, sizeof(*xrp))` (`part_001:236`). -/
def XiRule.zero : XiRule := ⟨0, 0, 0, 0, 0, 0⟩

/-- `xi_rstate_t` (fields as used by `xi_rules.c`): flags, default action,
first-rule atom. -/
structure XiRstate where
  xrbs_flags : Nat
  xrbs_action : Nat
  xrbs_first_rule : Nat
deriving DecidableEq

/-- The location held in `xrps_nextp` (`part_001:157`): a pointer either
to a state's `xrbs_first_rule` field or to a rule's `xr_next` field. -/
inductive NextSlot where
  | stateFirst : Nat → NextSlot
  | ruleNext : Nat → NextSlot
deriving DecidableEq

/-- `XI_DEPTH_MAX_RULES` (`part_001:139`). -/
def XI_DEPTH_MAX_RULES : Nat := 4

/-- The mutable state of one `xi_rulebook_prep` run: the rulebook being
built (`states`, `rules`, `bitmaps` pools with their allocation cursors,
`maxState` = `xrsi_max_state`) and the in-compilation stack of
`xi_rulebook_prep_t`.  The callback indexes `xrp_stack[xrp_depth]` and
never writes `xrp_depth`, so the stack contributes one live slot
(`nextp` = `xrps_nextp`, `curRule` = `xrps_rule`) beside the recorded
`depth`. -/
structure PrepState where
  states : Nat → XiRstate
  rules : Nat → XiRule
  bitmaps : Nat → List Nat
  nextRid : Nat
  nextBid : Nat
  maxState : Nat
  depth : Nat
  nextp : Option NextSlot
  curRule : Nat

/-- `bzero(&prep, sizeof(prep))` (`part_001:269`) plus empty pools; rule
and bitmap atoms are issued from 1 (`PA_NULL_ATOM` is 0). -/
def prep_init : PrepState :=
  { states := fun _ => ⟨0, 0, 0⟩
    rules := fun _ => XiRule.zero
    bitmaps := fun _ => []
    nextRid := 1
    nextBid := 1
    maxState := 0
    depth := 0
    nextp := none
    curRule := 0 }

/-- An element-open event as seen by `xi_rulebook_prep_cb` (the callback's
`switch` acts only on `XI_TYPE_OPEN`; all other node types fall through).
`openState` carries the decoded `id` and the action value of the `action`
attribute; `openRule` carries the `tag` atom (0 when the attribute is
missing or does not intern), and the decoded `action`, `new-state` and
`use-tag` attributes (`none` = attribute not present). -/
inductive PrepEvent where
  | openScript : PrepEvent
  | openState : Nat → Nat → PrepEvent
  | openRule : Nat → Option Nat → Option Nat → Option Nat → PrepEvent
  | openOther : PrepEvent
  | nonOpen : PrepEvent

/-- `xi_rule_bitmap_add` (`part_001:112`): resolve the tag atom (done by
the caller here); if it is null, return; allocate a bitmap for the rule if
it has none; set the atom's bit in the map.  Returns the updated rule
record and prep state. -/
def xi_rule_bitmap_add (ps : PrepState) (xrp : XiRule) (tagAtom : Nat) :
    XiRule × PrepState :=
  if tagAtom = 0 then (xrp, ps)
  else
    let bm := if xrp.xr_bitmap = 0 then ps.nextBid else xrp.xr_bitmap
    let ps1 := if xrp.xr_bitmap = 0 then { ps with nextBid := ps.nextBid + 1 } else ps
    ({ xrp with xr_bitmap := bm },
     { ps1 with bitmaps := Function.update ps1.bitmaps bm (tagAtom :: ps1.bitmaps bm) })

/-- One step of `xi_rulebook_prep_cb` (`part_001:161-257`) on an
element-open event.  `none` models the crash of
`*stackp->xrps_nextp = ... ` (`part_001:247`) when no `<state>` has set
the tail pointer. -/
def prep_step (max_atoms : Nat) (ps : PrepState) (ev : PrepEvent) : Option PrepState :=
  match ev with
  | .openScript => some ps
  | .openOther => some ps
  | .nonOpen => some ps
  | .openState sid action =>
    -- `if (sid > pa_fixed_max_atoms(...)) break;`
    if max_atoms < sid then some ps
    else
      -- `statep = pa_fixed_element(...); if (statep) { bzero; set action;
      --  stackp->xrps_nextp = &statep->xrbs_first_rule; }` and the
      -- unconditional `xrsi_max_state` update.
      some { ps with
             states := Function.update ps.states sid ⟨0, action, 0⟩
             nextp := some (.stateFirst sid)
             maxState := max ps.maxState sid }
  | .openRule tagAtom action newState useTag =>
    -- `rid = pa_fixed_alloc_atom(...); xrp = pa_fixed_atom_addr(...);`
    let rid := ps.nextRid
    let ps1 := { ps with nextRid := rid + 1 }
    -- `bzero(xrp, sizeof(*xrp)); xi_rule_bitmap_add(xrbp, xrp, tag);`
    let add := xi_rule_bitmap_add ps1 XiRule.zero tagAtom
    let ps2 := add.2
    -- `if (action) ...; if (use_tag) ...; if (new_state) ...;` — a present
    -- attribute overwrites the zeroed field, an absent one leaves it.
    let xrp3 := { add.1 with
                  xr_action := action.getD add.1.xr_action
                  xr_use_tag := useTag.getD add.1.xr_use_tag
                  xr_new_state := newState.getD add.1.xr_new_state }
    let ps3 := { ps2 with rules := Function.update ps2.rules rid xrp3, curRule := rid }
    -- `*stackp->xrps_nextp = stackp->xrps_rule = rid;
    --  stackp->xrps_nextp = &xrp->xr_next;`
    match ps3.nextp with
    | none => none
    | some (.stateFirst sid) =>
      some { ps3 with
             states := Function.update ps3.states sid
               { ps3.states sid with xrbs_first_rule := rid }
             nextp := some (.ruleNext rid) }
    | some (.ruleNext r) =>
      some { ps3 with
             rules := Function.update ps3.rules r
               { ps3.rules r with xr_next := rid }
             nextp := some (.ruleNext rid) }

/-- `xi_parse_emit` driving `xi_rulebook_prep_cb` over the script's
events in document order. -/
def prep_run (max_atoms : Nat) (ps : PrepState) : List PrepEvent → Option PrepState
  | [] => some ps
  | e :: es =>
    match prep_step max_atoms ps e with
    | none => none
    | some ps1 => prep_run max_atoms ps1 es

/-- The attributes of one `<rule tag=.. action=.. new-state=.. use-tag=../>`
element, pre-decoded as on `PrepEvent.openRule`. -/
structure RuleAttrs where
  tag : Nat
  action : Option Nat
  newState : Option Nat
  useTag : Option Nat

/-- One `<state id=N action=A>` element with its `<rule>` children. -/
structure StateBlock where
  sid : Nat
  action : Nat
  rules : List RuleAttrs

/-- The open events of one state block, in document order. -/
def blockEvents (b : StateBlock) : List PrepEvent :=
  .openState b.sid b.action ::
    b.rules.map (fun r => .openRule r.tag r.action r.newState r.useTag)

/-- The open events of a `<script>` document: the script element followed
by its state blocks in document order. -/
def scriptEvents (blocks : List StateBlock) : List PrepEvent :=
  .openScript :: (blocks.map blockEvents).flatten

/-- The rule chain hanging off an atom: `rid`, then `xr_next` links, until
the null atom.  `ChainIs rules rid l` says the chain starting at `rid` is
exactly `l`. -/
inductive ChainIs (rules : Nat → XiRule) : Nat → List Nat → Prop where
  | nil : ChainIs rules 0 []
  | cons {rid : Nat} {l : List Nat} : rid ≠ 0 →
      ChainIs rules (rules rid).xr_next l → ChainIs rules rid (rid :: l)

/-- The moving tail pointer invariant: with `done` the rule atoms already
appended for state `sid` (in order), `xrps_nextp` points at the state's
`xrbs_first_rule` field while `done` is empty, and at the `xr_next` field
of the last appended rule afterwards. -/
def TailInv (ps : PrepState) (sid : Nat) (done : List Nat) : Prop :=
  ps.nextp = some
    (match done.getLast? with
     | none => NextSlot.stateFirst sid
     | some r => NextSlot.ruleNext r)

/-! ## Definitions: rule lookup (`xi_rulebook_find`, `part_001:290`) -/

/-- The fields of `xi_parse_t` that `xi_rulebook_find` touches. -/
structure XiParse where
  xp_default_rule : XiRule

/-- `xi_rulebook_find` (`part_001:290-296`), verbatim: every argument but
`parsep` is `UNUSED`, and the function returns `&parsep->xp_default_rule`
unconditionally. -/
def xi_rulebook_find (parsep : XiParse) (name_atom : Nat)
    (pref nm attribs : List Nat) : XiRule :=
  parsep.xp_default_rule

/-- Modelled from the spec: a rule matches a token iff the rule's tag
bitmap has the token's tag atom set (§4.7 step 2).  The run-time lookup
the spec prescribes is not implemented in the source (`xi_rulebook_find`
is a stub); this definition follows the spec's words. -/
def xi_rule_matches (bitmaps : Nat → List Nat) (rule : XiRule) (tag_atom : Nat) : Bool :=
  decide (tag_atom ∈ bitmaps rule.xr_bitmap)

/-- Modelled from the spec: "Scan the state's rule list in order; a rule
matches iff its tag bitmap has `tag_atom` set" (§4.7 step 2).  Returns the
first matching rule atom, or none. -/
def spec_rule_scan (rules : Nat → XiRule) (bitmaps : Nat → List Nat) (tag_atom : Nat) :
    Nat → Nat → Option Nat
  | 0, _ => none
  | fuel + 1, rid =>
    if rid = 0 then none
    else if xi_rule_matches bitmaps (rules rid) tag_atom then some rid
    else spec_rule_scan rules bitmaps tag_atom fuel (rules rid).xr_next

/-- Modelled from the spec: the action selected for a token — the first
matching rule's action, and "if no rule matches, apply the state's default
action" (§4.7 steps 2-3). -/
def spec_selected_action (rules : Nat → XiRule) (bitmaps : Nat → List Nat)
    (st : XiRstate) (tag_atom : Nat) (fuel : Nat) : Nat :=
  match spec_rule_scan rules bitmaps tag_atom fuel st.xrbs_first_rule with
  | some rid => (rules rid).xr_action
  | none => st.xrbs_action

/-! ## Example instances used by the witness theorems -/

/-- A concrete two-key trie over the keys `"a\0" = [97, 0]` and
`"b\0" = [98, 0]` (key length 2): atom 1 is the internal node testing bit
`0xfd` (byte 0, bit 6 from the MSB, where `0x61` and `0x62` differ), atoms
2 and 3 are the external nodes; data atoms 10 and 11 carry the keys. -/
def egTrie : PatTrie :=
  { root := 1
    pp_key_bytes := 2
    nodes :=
      [none,
       some ⟨511, 253, 2, 3, 0⟩,
       some ⟨511, 0, 0, 0, 10⟩,
       some ⟨511, 0, 0, 0, 11⟩]
    keyOf := fun d => if d = 10 then [97, 0] else if d = 11 then [98, 0] else [] }

/-- A concrete compiled rulebook fragment: rule atom 1 has action 2
(`XIA_SAVE`), bitmap atom 1, and no successor. -/
def egRules : Nat → XiRule :=
  fun rid => if rid = 1 then ⟨0, 2, 0, 0, 1, 0⟩ else XiRule.zero

/-- Bitmap atom 1 has exactly the tag atom 7 set. -/
def egBitmaps : Nat → List Nat :=
  fun bm => if bm = 1 then [7] else []

/-- A state whose default action is 1 (`XIA_DISCARD`) and whose rule list
starts at rule atom 1. -/
def egState : XiRstate := ⟨0, 1, 1⟩

/-- A parse whose default rule has action 0 (`XIA_NONE`). -/
def egParse : XiParse := ⟨XiRule.zero⟩

/-! ## Lemmas and claim theorems -/

/-- Dropping `k` keeps the elements at `k` and `k + 1` in front. -/
lemma drop_two_front (l : List Nat) : ∀ k : Nat, k + 1 < l.length →
    ∃ rest, l.drop k = l.getD k 0 :: l.getD (k + 1) 0 :: rest := by
  induction l with
  | nil => intro k h; simp at h
  | cons a t ih =>
    intro k h
    cases k with
    | zero =>
      cases t with
      | nil => simp at h
      | cons b t2 => exact ⟨t2, by simp [List.getD]⟩
    | succ k =>
      have h' : k + 1 < t.length := by simpa [List.length_cons, Nat.succ_lt_succ_iff] using h
      obtain ⟨rest, hrest⟩ := ih k h'
      exact ⟨rest, by simpa [List.getD] using hrest⟩

lemma pa_short_strings_length : pa_short_strings.length = 512 := by
  simp [pa_short_strings, PA_SHORT_STRINGS_MAX]

lemma pa_short_strings_getD (k : Nat) (hk : k < 512) :
    pa_short_strings.getD k 0 = if k % 2 = 0 then k / 2 else 0 := by
  rw [pa_short_strings, List.getD_eq_getElem _ _ (by simpa [PA_SHORT_STRINGS_MAX] using hk)]
  simp

/-- The two table bytes that a short-string atom points at. -/
lemma pa_short_string_bytes (a : Nat) (h1 : 1 ≤ a) (h2 : a ≤ 256) :
    ∃ rest, pa_short_string a = (a - 1) :: 0 :: rest := by
  have hk : (a - 1) <<< 1 = 2 * (a - 1) := by
    rw [Nat.shiftLeft_eq]; ring
  have hlt : 2 * (a - 1) + 1 < 512 := by omega
  obtain ⟨rest, hrest⟩ := drop_two_front pa_short_strings (2 * (a - 1))
    (by rw [pa_short_strings_length]; exact hlt)
  refine ⟨rest, ?_⟩
  rw [pa_short_string, PA_SHORT_STRINGS_MIN, hk, hrest]
  rw [pa_short_strings_getD (2 * (a - 1)) (by omega),
      pa_short_strings_getD (2 * (a - 1) + 1) (by omega)]
  have e1 : (2 * (a - 1)) % 2 = 0 := by omega
  have e2 : (2 * (a - 1) + 1) % 2 = 1 := by omega
  simp [e1, e2]

/-- **C2.** For every single-byte string `s` (bytes being values below
256), `pa_short_string_atom s` — the `intern` fast path for `len == 1` —
returns the atom `1 + s[0]`, which lies in the short-string range
`1..256`; interning the empty string returns atom 1, and interning `"a"`
returns 98. -/
theorem claim_C2_short_string_intern (s : List Nat)
    (hlen : s.length = 1) (hbytes : ∀ b ∈ s, b < 256) :
    (pa_short_string_atom s = 1 + s.headD 0 ∧
      1 ≤ pa_short_string_atom s ∧ pa_short_string_atom s ≤ 256) ∧
    pa_short_string_atom [] = 1 ∧ pa_short_string_atom [97] = 98 := by
  refine ⟨⟨rfl, ?_, ?_⟩, rfl, rfl⟩
  · simp [pa_short_string_atom, PA_SHORT_STRINGS_MIN]
  · match s, hlen with
    | [b], _ =>
      have hb : b < 256 := hbytes b (by simp)
      simp [pa_short_string_atom, PA_SHORT_STRINGS_MIN]
      omega

/-- Witness for C2 at the concrete input `s = "a" = [97]`. -/
theorem claim_C2_short_string_intern_witness :
    ([97] : List Nat).length = 1 ∧ (∀ b ∈ [97], b < 256) ∧
    ((pa_short_string_atom [97] = 1 + ([97] : List Nat).headD 0 ∧
        1 ≤ pa_short_string_atom [97] ∧ pa_short_string_atom [97] ≤ 256) ∧
      pa_short_string_atom [] = 1 ∧ pa_short_string_atom [97] = 98) :=
  ⟨by decide, by decide,
    claim_C2_short_string_intern [97] (by decide) (by decide)⟩

/-- **C8.** For every short-string atom `a` in `1..256`, dereferencing via
`pa_short_string` reads from the 512-byte static table and yields the
single byte `a - 1` followed by a NUL; consequently dereferencing
`intern s` round-trips to the original bytes for every string `s` of
length at most 1 (bytes of a C string being nonzero and below 256). -/
theorem claim_C8_short_string_deref (a : Nat) (s : List Nat)
    (h1 : 1 ≤ a) (h2 : a ≤ 256)
    (hlen : s.length ≤ 1) (hbytes : ∀ b ∈ s, 0 < b ∧ b < 256) :
    (pa_short_string a).take 2 = [a - 1, 0] ∧
    cstringOf (pa_short_string (pa_short_string_atom s)) = s := by
  constructor
  · obtain ⟨rest, hrest⟩ := pa_short_string_bytes a h1 h2
    rw [hrest]; rfl
  · match s, hlen with
    | [], _ =>
      obtain ⟨rest, hrest⟩ := pa_short_string_bytes (pa_short_string_atom []) (by decide) (by decide)
      have ha : pa_short_string_atom [] = 1 := rfl
      rw [hrest, ha, cstringOf]
      simp
    | [b], _ =>
      have hb0 : 0 < b := (hbytes b (by simp)).1
      have hb : b < 256 := (hbytes b (by simp)).2
      have ha : pa_short_string_atom [b] = 1 + b := rfl
      obtain ⟨rest, hrest⟩ := pa_short_string_bytes (pa_short_string_atom [b])
        (by omega) (by omega)
      rw [hrest, ha, cstringOf]
      have hbne : b ≠ 0 := by omega
      simp [hbne]

/-- Witness for C8 at `a = 98` and `s = "a" = [97]`. -/
theorem claim_C8_short_string_deref_witness :
    (1 ≤ 98 ∧ 98 ≤ 256 ∧ ([97] : List Nat).length ≤ 1 ∧
      (∀ b ∈ [97], 0 < b ∧ b < 256)) ∧
    ((pa_short_string 98).take 2 = [97, 0] ∧
      cstringOf (pa_short_string (pa_short_string_atom [97])) = [97]) :=
  ⟨⟨by decide, by decide, by decide, by decide⟩,
    claim_C8_short_string_deref 98 [97] (by decide) (by decide) (by decide) (by decide)⟩

lemma testBit_255 (j : Nat) : (255 : Nat).testBit j = decide (j < 8) := by
  rw [show (255 : Nat) = 2 ^ 8 - 1 by norm_num, Nat.testBit_two_pow_sub_one]

lemma and_255_eq_mod (y : Nat) : y &&& 255 = y % 256 := by
  apply Nat.eq_of_testBit_eq
  intro j
  rw [show (256 : Nat) = 2 ^ 8 by norm_num, Nat.testBit_mod_two_pow]
  simp [Nat.testBit_and, testBit_255, Bool.and_comm]

lemma xor_and_255 (y : Nat) : (y ^^^ 255) &&& 255 = (y &&& 255) ^^^ 255 := by
  apply Nat.eq_of_testBit_eq
  intro j
  by_cases hj : j < 8 <;>
    simp [Nat.testBit_and, Nat.testBit_xor, testBit_255, hj]

lemma or_low_and_255 (x c : Nat) (hc : c < 256) : ((x <<< 8) ||| c) &&& 255 = c := by
  apply Nat.eq_of_testBit_eq
  intro j
  by_cases hj : j < 8
  · have hx : (x <<< 8).testBit j = false := by
      simp [Nat.testBit_shiftLeft]
      omega
    simp [Nat.testBit_and, Nat.testBit_or, testBit_255, hj, hx]
  · have hcj : c.testBit j = false := by
      apply Nat.testBit_lt_two_pow
      calc c < 2 ^ 8 := hc
        _ ≤ 2 ^ j := Nat.pow_le_pow_right (by norm_num) (by omega)
    simp [Nat.testBit_and, Nat.testBit_or, testBit_255, hj, hcj]

lemma or_high_shiftRight (x c : Nat) (hc : c < 256) :
    ((x <<< 8) ||| c) >>> 8 = x := by
  apply Nat.eq_of_testBit_eq
  intro j
  rw [Nat.testBit_shiftRight, Nat.testBit_or, Nat.testBit_shiftLeft]
  have hcj : c.testBit (8 + j) = false := by
    apply Nat.testBit_lt_two_pow
    calc c < 2 ^ 8 := hc
      _ ≤ 2 ^ (8 + j) := Nat.pow_le_pow_right (by norm_num) (by omega)
  simp [hcj]

lemma and_two_pow_ne_zero (x k : Nat) : x &&& 2 ^ k ≠ 0 ↔ x.testBit k = true := by
  rw [Nat.and_two_pow]
  cases h : x.testBit k <;> simp [h]

/-- **C4.** For every byte offset `b` in `0..255` and bit-within-byte `i`
in `0..7` (0 denoting the most significant bit), `pa_pat_makebit b i`
equals `((b & 0xff) << 8) | (~hi_bit_mask[i] & 0xff)`, and the bit test
`pat_key_test` computes `key[bit >> 8] & (~bit & 0xff)`, which is nonzero
exactly when bit `i` (counting from the most significant) of `key[b]` is
set. -/
theorem claim_C4_makebit_and_key_test (b i : Nat) (key : List Nat)
    (hb : b < 256) (hi : i < 8) :
    pa_pat_makebit b i =
      ((b &&& 255) <<< 8) ||| ((pa_pat_hi_bit_table i ^^^ 255) &&& 255) ∧
    (pat_key_test key (pa_pat_makebit b i) ≠ 0 ↔
      (key.getD b 0).testBit (7 - i) = true) := by
  refine ⟨rfl, ?_⟩
  have hb255 : b &&& 255 = b := by rw [and_255_eq_mod]; omega
  have htable : pa_pat_hi_bit_table i = 2 ^ (7 - i) := by
    rw [pa_pat_hi_bit_table, Nat.shiftRight_eq_div_pow]
    rw [show (128 : Nat) = 2 ^ 7 by norm_num, Nat.pow_div (by omega) (by norm_num)]
  have htlt : pa_pat_hi_bit_table i < 256 := by
    rw [htable]
    calc 2 ^ (7 - i) ≤ 2 ^ 7 := Nat.pow_le_pow_right (by norm_num) (by omega)
      _ < 256 := by norm_num
  have ht255 : pa_pat_hi_bit_table i &&& 255 = pa_pat_hi_bit_table i := by
    rw [and_255_eq_mod]; omega
  have hc : (pa_pat_hi_bit_table i ^^^ 255) &&& 255 = pa_pat_hi_bit_table i ^^^ 255 := by
    rw [xor_and_255, ht255]
  have hclt : (pa_pat_hi_bit_table i ^^^ 255) &&& 255 < 256 := by
    rw [and_255_eq_mod]; omega
  have hmask : ((pa_pat_makebit b i ^^^ 255) &&& 255) = 2 ^ (7 - i) := by
    rw [pa_pat_makebit, hb255, xor_and_255, or_low_and_255 _ _ hclt, hc,
        Nat.xor_assoc, Nat.xor_self, Nat.xor_zero, htable]
  have hidx : pa_pat_makebit b i >>> 8 = b := by
    rw [pa_pat_makebit, hb255, or_high_shiftRight _ _ hclt]
  rw [pat_key_test, hidx, hmask, and_two_pow_ne_zero]

/-- Witness for C4 at `b = 0`, `i = 6`, `key = "b" = [98]` (where
`0x62 = 0b01100010` has bit 6, counting from the MSB, set). -/
theorem claim_C4_makebit_and_key_test_witness :
    ((0 : Nat) < 256 ∧ (6 : Nat) < 8) ∧
    (pa_pat_makebit 0 6 =
        ((0 &&& 255) <<< 8) ||| ((pa_pat_hi_bit_table 6 ^^^ 255) &&& 255) ∧
      (pat_key_test [98] (pa_pat_makebit 0 6) ≠ 0 ↔
        (([98] : List Nat).getD 0 0).testBit (7 - 6) = true)) :=
  ⟨⟨by decide, by decide⟩,
    claim_C4_makebit_and_key_test 0 6 [98] (by decide) (by decide)⟩

lemma list_getD_mem {α : Type} (l : List (Option α)) :
    ∀ (a : Nat) (n : α), l.getD a none = some n → some n ∈ l := by
  induction l with
  | nil => intro a n h; simp [List.getD] at h
  | cons o tl ih =>
    intro a n h
    cases a with
    | zero =>
      rw [List.getD_cons_zero] at h
      simp [h]
    | succ a =>
      rw [List.getD_cons_succ] at h
      exact List.mem_cons_of_mem _ (ih a n h)

/-- Every node the pool resolves has a 16-bit `ppn_bit`. -/
lemma pa_pat_node_bit_lt {t : PatTrie} (hb : BitsBounded t) {a : Nat} {n : PatNode}
    (h : pa_pat_node t a = some n) : n.ppn_bit < 65536 := by
  rw [pa_pat_node] at h
  by_cases ha : a = 0
  · simp [ha] at h
  · rw [if_neg ha] at h
    have hmem := list_getD_mem t.nodes a n h
    have := hb _ hmem
    simpa [nodeBitsOk] using this

/-- The walk never exhausts a fuel budget exceeding `65536 - bit`: the
inspected bit index strictly increases at every iteration and is bounded
by the 16-bit width. -/
lemma walkLoop_ne_outOfFuel {t : PatTrie} (hb : BitsBounded t)
    (kb : Nat) (key : List Nat) (bl : Nat) :
    ∀ fuel bit cur, 65536 - bit < fuel →
      patWalkLoop t kb key bl fuel bit cur ≠ .outOfFuel := by
  intro fuel
  induction fuel with
  | zero => intro bit cur h; omega
  | succ fuel ih =>
    intro bit cur h
    cases hnode : pa_pat_node t cur with
    | none => simp [patWalkLoop, hnode]
    | some node =>
      by_cases hlt : bit < node.ppn_bit
      · have hbit : node.ppn_bit < 65536 := pa_pat_node_bit_lt hb hnode
        simp only [patWalkLoop, hnode, hlt, if_true, Option.isNone_some,
          Bool.false_eq_true, if_false]
        exact ih node.ppn_bit _ (by omega)
      · simp only [patWalkLoop, hnode, hlt, if_false]
        split <;> simp

/-- The in-loop NULL check (`if (node == NULL) return NULL;`,
`part_001:1001`) never executes: the loop condition has already read
`node->ppn_bit` on every path that reaches it. -/
lemma walkLoop_ne_bodyReturn (t : PatTrie) (kb : Nat) (key : List Nat) (bl : Nat) :
    ∀ fuel bit cur, patWalkLoop t kb key bl fuel bit cur ≠ .nullBodyReturn := by
  intro fuel
  induction fuel with
  | zero => intro bit cur; simp [patWalkLoop]
  | succ fuel ih =>
    intro bit cur
    cases hnode : pa_pat_node t cur with
    | none => simp [patWalkLoop, hnode]
    | some node =>
      by_cases hlt : bit < node.ppn_bit
      · simp only [patWalkLoop, hnode, hlt, if_true, Option.isNone_some,
          Bool.false_eq_true, if_false]
        exact ih node.ppn_bit _
      · simp only [patWalkLoop, hnode, hlt, if_false]
        split <;> simp

/-- On a trie whose walk-visited atoms all resolve, the fuelled loop
computes exactly the spec's walk, wrapped in a normal return. -/
lemma walkLoop_eq_specWalk {t : PatTrie} (hb : BitsBounded t)
    (kb : Nat) (key : List Nat) (bl : Nat) :
    ∀ fuel bit cur,
      (∀ a ∈ patWalkAtoms t key bl fuel bit cur, (pa_pat_node t a).isSome = true) →
      65536 - bit < fuel →
      patWalkLoop t kb key bl fuel bit cur = .ok (specWalk t kb key bl fuel bit cur) := by
  intro fuel
  induction fuel with
  | zero => intro bit cur _ h; omega
  | succ fuel ih =>
    intro bit cur hvalid h
    cases hnode : pa_pat_node t cur with
    | none =>
      exfalso
      have hmem : cur ∈ patWalkAtoms t key bl (fuel + 1) bit cur := by
        simp [patWalkAtoms]
      have := hvalid cur hmem
      rw [hnode] at this
      simp at this
    | some node =>
      by_cases hlt : bit < node.ppn_bit
      · have hbit : node.ppn_bit < 65536 := pa_pat_node_bit_lt hb hnode
        have hle : ¬ node.ppn_bit ≤ bit := by omega
        have hsub : ∀ a ∈ patWalkAtoms t key bl fuel node.ppn_bit
            (if node.ppn_bit < bl ∧ pat_key_test key node.ppn_bit ≠ 0 then node.ppn_right
             else node.ppn_left),
            (pa_pat_node t a).isSome = true := by
          intro a ha
          apply hvalid a
          simp only [patWalkAtoms, hnode, hlt, if_true]
          exact List.mem_cons_of_mem _ ha
        simp only [patWalkLoop, specWalk, hnode, hlt, hle, if_true, if_false,
          Option.isNone_some, Bool.false_eq_true]
        exact ih node.ppn_bit _ hsub (by omega)
      · have hle : node.ppn_bit ≤ bit := by omega
        simp only [patWalkLoop, specWalk, hnode, hlt, hle, if_true, if_false]
        split <;> rfl

/-- **C3.** For every trie (with intact pool along the walk) and every
non-empty key, `pa_pat_get_inline` computes exactly the lookup the spec
describes: null on a null root; otherwise walk from the root, going right
exactly when the node's bit index is below the key's bit length and the
key's bit at that index is set, stopping at the first node whose bit index
does not strictly increase over the previous one, and returning that node
iff its stored length equals the key's bit length and its key bytes equal
the search key, null on any mismatch; and the lookup never fails with an
error — it returns normally (`GetResult.ok`) with a node or null. -/
theorem claim_C3_pat_get_follows_spec (t : PatTrie) (kb : Nat) (key : List Nat)
    (hkb : kb ≠ 0) (hb : BitsBounded t) (hv : WalkValid t kb key) :
    pa_pat_get_inline t kb key 65537 = .ok (specGet t kb key 65537) := by
  rw [pa_pat_get_inline, specGet, if_neg hkb]
  by_cases hroot : t.root = 0
  · simp [hroot]
  · rw [if_neg hroot, if_neg hroot]
    exact walkLoop_eq_specWalk hb kb key _ 65537 PA_PAT_NOBIT t.root (hv hroot) (by decide)

/-- Witness for C3: looking up `"b\0" = [98, 0]` in the concrete two-key
trie `egTrie`. -/
theorem claim_C3_pat_get_follows_spec_witness :
    ((2 : Nat) ≠ 0 ∧ BitsBounded egTrie ∧ WalkValid egTrie 2 [98, 0]) ∧
    pa_pat_get_inline egTrie 2 [98, 0] 65537 = .ok (specGet egTrie 2 [98, 0] 65537) :=
  ⟨⟨by decide, by decide, by intro h; decide⟩,
    claim_C3_pat_get_follows_spec egTrie 2 [98, 0] (by decide) (by decide)
      (by intro h; decide)⟩

/-- **C6.** For every trie (whose stored bit indices fit the 16-bit field)
and every non-empty key, the lookup walk terminates: the inspected bit
index strictly increases on every iteration, so a step budget of
`2^16 + 1` is never exhausted. -/
theorem claim_C6_lookup_walk_terminates (t : PatTrie) (kb : Nat) (key : List Nat)
    (hkb : kb ≠ 0) (hb : BitsBounded t) :
    pa_pat_get_inline t kb key 65537 ≠ .outOfFuel := by
  rw [pa_pat_get_inline, if_neg hkb]
  by_cases hroot : t.root = 0
  · simp [hroot]
  · rw [if_neg hroot]
    exact walkLoop_ne_outOfFuel hb kb key _ 65537 PA_PAT_NOBIT t.root (by decide)

/-- Witness for C6: looking up `"a\0" = [97, 0]` in `egTrie`. -/
theorem claim_C6_lookup_walk_terminates_witness :
    ((2 : Nat) ≠ 0 ∧ BitsBounded egTrie) ∧
    pa_pat_get_inline egTrie 2 [97, 0] 65537 ≠ .outOfFuel :=
  ⟨⟨by decide, by decide⟩,
    claim_C6_lookup_walk_terminates egTrie 2 [97, 0] (by decide) (by decide)⟩

/-- **C9.** Calling the lookup with a zero-length key aborts, and for
every key length of at least one byte (on a trie whose walk-visited atoms
resolve) the call never aborts, returning a matching node or null; the
maximum key length `PA_PAT_MAXKEY` is 256 bytes. -/
theorem claim_C9_zero_key_aborts (t : PatTrie) (key : List Nat)
    (hb : BitsBounded t) :
    pa_pat_get_inline t 0 key 65537 = .aborted ∧
    (∀ kb, 0 < kb → WalkValid t kb key →
      ∃ r, pa_pat_get_inline t kb key 65537 = .ok r) ∧
    PA_PAT_MAXKEY = 256 := by
  refine ⟨by rw [pa_pat_get_inline, if_pos rfl], ?_, rfl⟩
  intro kb hkb hv
  refine ⟨specGet t kb key 65537, ?_⟩
  rw [pa_pat_get_inline, specGet, if_neg (by omega)]
  by_cases hroot : t.root = 0
  · simp [hroot]
  · rw [if_neg hroot, if_neg hroot]
    exact walkLoop_eq_specWalk hb kb key _ 65537 PA_PAT_NOBIT t.root (hv hroot) (by decide)

/-- Witness for C9 on `egTrie` with the key `"a\0" = [97, 0]`. -/
theorem claim_C9_zero_key_aborts_witness :
    BitsBounded egTrie ∧
    (pa_pat_get_inline egTrie 0 [97, 0] 65537 = .aborted ∧
      (∀ kb, 0 < kb → WalkValid egTrie kb [97, 0] →
        ∃ r, pa_pat_get_inline egTrie kb [97, 0] 65537 = .ok r) ∧
      PA_PAT_MAXKEY = 256) :=
  ⟨by decide, claim_C9_zero_key_aborts egTrie [97, 0] (by decide)⟩

/-- **C10.** In the lookup walk, the node pointer read by the loop
condition is the one that must be non-null: on every trie state whose
root and walk-reached child atoms resolve to valid nodes, the in-loop
null check is never the step that prevents a null dereference (the
`nullBodyReturn` exit is unreachable), and the walk always returns
normally with a node or null. -/
theorem claim_C10_loop_null_check_dead (t : PatTrie) (kb : Nat) (key : List Nat)
    (hkb : 0 < kb) (hb : BitsBounded t) (hv : WalkValid t kb key) :
    pa_pat_get_inline t kb key 65537 ≠ .nullBodyReturn ∧
    ∃ r, pa_pat_get_inline t kb key 65537 = .ok r := by
  constructor
  · rw [pa_pat_get_inline, if_neg (by omega)]
    by_cases hroot : t.root = 0
    · simp [hroot]
    · rw [if_neg hroot]
      exact walkLoop_ne_bodyReturn t kb key _ 65537 PA_PAT_NOBIT t.root
  · refine ⟨specGet t kb key 65537, ?_⟩
    rw [pa_pat_get_inline, specGet, if_neg (by omega)]
    by_cases hroot : t.root = 0
    · simp [hroot]
    · rw [if_neg hroot, if_neg hroot]
      exact walkLoop_eq_specWalk hb kb key _ 65537 PA_PAT_NOBIT t.root (hv hroot) (by decide)

/-- Witness for C10: the walk for `"a\0" = [97, 0]` in `egTrie`. -/
theorem claim_C10_loop_null_check_dead_witness :
    ((0 : Nat) < 2 ∧ BitsBounded egTrie ∧ WalkValid egTrie 2 [97, 0]) ∧
    (pa_pat_get_inline egTrie 2 [97, 0] 65537 ≠ .nullBodyReturn ∧
      ∃ r, pa_pat_get_inline egTrie 2 [97, 0] 65537 = .ok r) :=
  ⟨⟨by decide, by decide, by intro h; decide⟩,
    claim_C10_loop_null_check_dead egTrie 2 [97, 0] (by decide) (by decide)
      (by intro h; decide)⟩

/-- **C5.** For every trie root and key, `pa_pat_lookup_geq root key`
equals `pa_pat_getnext root root->pp_key_bytes key TRUE`: the wrapper
forwards `return_eq = TRUE` unconditionally (rather than exposing the
caller-supplied `return_eq` parameter that the documented getnext contract
— "a la SNMP getnext" — says controls equality handling). -/
theorem claim_C5_lookup_geq_forwards_return_eq
    (pa_pat_getnext : PatTrie → Nat → List Nat → Bool → Option PatNode)
    (root : PatTrie) (key : List Nat) :
    pa_pat_lookup_geq pa_pat_getnext root key =
      pa_pat_getnext root root.pp_key_bytes key true := rfl

lemma bitmap_add_snd_states (ps : PrepState) (xrp : XiRule) (tag : Nat) :
    (xi_rule_bitmap_add ps xrp tag).2.states = ps.states := by
  rw [xi_rule_bitmap_add]
  split <;> simp <;> split <;> simp

lemma bitmap_add_snd_rules (ps : PrepState) (xrp : XiRule) (tag : Nat) :
    (xi_rule_bitmap_add ps xrp tag).2.rules = ps.rules := by
  rw [xi_rule_bitmap_add]
  split <;> simp <;> split <;> simp

lemma bitmap_add_snd_nextRid (ps : PrepState) (xrp : XiRule) (tag : Nat) :
    (xi_rule_bitmap_add ps xrp tag).2.nextRid = ps.nextRid := by
  rw [xi_rule_bitmap_add]
  split <;> simp <;> split <;> simp

lemma bitmap_add_snd_nextp (ps : PrepState) (xrp : XiRule) (tag : Nat) :
    (xi_rule_bitmap_add ps xrp tag).2.nextp = ps.nextp := by
  rw [xi_rule_bitmap_add]
  split <;> simp <;> split <;> simp

lemma bitmap_add_snd_depth (ps : PrepState) (xrp : XiRule) (tag : Nat) :
    (xi_rule_bitmap_add ps xrp tag).2.depth = ps.depth := by
  rw [xi_rule_bitmap_add]
  split <;> simp <;> split <;> simp

lemma bitmap_add_fst_next (ps : PrepState) (xrp : XiRule) (tag : Nat) :
    (xi_rule_bitmap_add ps xrp tag).1.xr_next = xrp.xr_next := by
  rw [xi_rule_bitmap_add]
  split <;> simp

lemma prep_step_depth (max_atoms : Nat) (ps : PrepState) (ev : PrepEvent)
    (ps1 : PrepState) (h : prep_step max_atoms ps ev = some ps1) :
    ps1.depth = ps.depth := by
  cases ev with
  | openScript => rw [prep_step] at h; cases h; rfl
  | openOther => rw [prep_step] at h; cases h; rfl
  | nonOpen => rw [prep_step] at h; cases h; rfl
  | openState sid action =>
    rw [prep_step] at h
    split at h <;> (cases h; rfl)
  | openRule tag action newState useTag =>
    rw [prep_step] at h
    split at h
    · cases h
    · cases h
      simp [bitmap_add_snd_depth]
    · cases h
      simp [bitmap_add_snd_depth]

lemma prep_step_openState_char (max_atoms : Nat) (ps : PrepState) (sid action : Nat)
    (h : sid ≤ max_atoms) :
    prep_step max_atoms ps (.openState sid action) =
      some { ps with
             states := Function.update ps.states sid ⟨0, action, 0⟩
             nextp := some (.stateFirst sid)
             maxState := max ps.maxState sid } := by
  rw [prep_step, if_neg (by omega)]

lemma prep_step_openRule_stateFirst (max_atoms : Nat) (ps : PrepState)
    (tag : Nat) (action newState useTag : Option Nat) (sid : Nat)
    (hnextp : ps.nextp = some (.stateFirst sid)) :
    ∃ ps', prep_step max_atoms ps (.openRule tag action newState useTag) = some ps' ∧
      ps'.nextRid = ps.nextRid + 1 ∧
      ps'.depth = ps.depth ∧
      ps'.nextp = some (.ruleNext ps.nextRid) ∧
      (∀ r, r ≠ ps.nextRid → ps'.rules r = ps.rules r) ∧
      (ps'.rules ps.nextRid).xr_next = 0 ∧
      (∀ s, s ≠ sid → ps'.states s = ps.states s) ∧
      (ps'.states sid).xrbs_first_rule = ps.nextRid := by
  simp only [prep_step, bitmap_add_snd_nextp, hnextp]
  refine ⟨_, rfl, ?_, ?_, ?_, ?_, ?_, ?_, ?_⟩
  · simp [bitmap_add_snd_nextRid]
  · simp [bitmap_add_snd_depth]
  · simp
  · intro r hr
    simp [bitmap_add_snd_rules, Function.update_noteq hr]
  · simp [bitmap_add_fst_next, XiRule.zero]
  · intro s hs
    simp [bitmap_add_snd_states, Function.update_noteq hs]
  · simp

lemma prep_step_openRule_ruleNext (max_atoms : Nat) (ps : PrepState)
    (tag : Nat) (action newState useTag : Option Nat) (r0 : Nat)
    (hnextp : ps.nextp = some (.ruleNext r0)) (hr0 : r0 ≠ ps.nextRid) :
    ∃ ps', prep_step max_atoms ps (.openRule tag action newState useTag) = some ps' ∧
      ps'.nextRid = ps.nextRid + 1 ∧
      ps'.depth = ps.depth ∧
      ps'.nextp = some (.ruleNext ps.nextRid) ∧
      (∀ r, r ≠ ps.nextRid → r ≠ r0 → ps'.rules r = ps.rules r) ∧
      (ps'.rules ps.nextRid).xr_next = 0 ∧
      (ps'.rules r0).xr_next = ps.nextRid ∧
      ps'.states = ps.states := by
  simp only [prep_step, bitmap_add_snd_nextp, hnextp]
  refine ⟨_, rfl, ?_, ?_, ?_, ?_, ?_, ?_, ?_⟩
  · simp [bitmap_add_snd_nextRid]
  · simp [bitmap_add_snd_depth]
  · simp
  · intro r hr hr'
    simp [bitmap_add_snd_rules, Function.update_noteq, hr, hr']
  · have hne : ps.nextRid ≠ r0 := fun h => hr0 h.symm
    simp [bitmap_add_snd_rules, Function.update_noteq, hne, bitmap_add_fst_next,
      XiRule.zero]
  · simp [bitmap_add_snd_rules]
  · simp [bitmap_add_snd_states]

/-- A rule chain only depends on the `xr_next` links of its members. -/
lemma ChainIs_congr {rules rules' : Nat → XiRule} {f : Nat} {l : List Nat}
    (hc : ChainIs rules f l)
    (hagree : ∀ x ∈ l, (rules' x).xr_next = (rules x).xr_next) :
    ChainIs rules' f l := by
  induction hc with
  | nil => exact ChainIs.nil
  | @cons rid l' hne hc' ih =>
    refine ChainIs.cons hne ?_
    rw [hagree rid (by simp)]
    exact ih (fun x hx => hagree x (List.mem_cons_of_mem _ hx))

/-- Appending a fresh rule at the tail of a chain: redirect the last
element's `xr_next` to the new rule (whose own `xr_next` is null). -/
lemma ChainIs_append {rules rules' : Nat → XiRule} {f r0 rid : Nat} {done : List Nat}
    (hc : ChainIs rules f done)
    (hnodup : done.Nodup)
    (hlast : done.getLast? = some r0)
    (hagree : ∀ x ∈ done, x ≠ r0 → (rules' x).xr_next = (rules x).xr_next)
    (hr0next : (rules' r0).xr_next = rid)
    (hridnext : (rules' rid).xr_next = 0)
    (hrid0 : rid ≠ 0) :
    ChainIs rules' f (done ++ [rid]) := by
  induction hc with
  | nil => simp at hlast
  | @cons rid1 l hne hc' ih =>
    cases l with
    | nil =>
      have hr0 : r0 = rid1 := by
        simp [List.getLast?] at hlast
        omega
      subst hr0
      simp only [List.cons_append, List.nil_append]
      refine ChainIs.cons hne ?_
      rw [hr0next]
      refine ChainIs.cons hrid0 ?_
      rw [hridnext]
      exact ChainIs.nil
    | cons b l2 =>
      have hlast' : (b :: l2).getLast? = some r0 := hlast
      have hr0mem : r0 ∈ b :: l2 := List.mem_of_mem_getLast? hlast'
      have hne1 : rid1 ≠ r0 := by
        intro h
        subst h
        exact (List.nodup_cons.mp hnodup).1 hr0mem
      simp only [List.cons_append]
      refine ChainIs.cons hne ?_
      rw [hagree rid1 (by simp) hne1]
      exact ih (List.nodup_cons.mp hnodup).2 hlast'
        (fun x hx hxne => hagree x (List.mem_cons_of_mem _ hx) hxne)

lemma prep_run_append (max_atoms : Nat) :
    ∀ (l1 l2 : List PrepEvent) (ps : PrepState),
      prep_run max_atoms ps (l1 ++ l2) =
        (match prep_run max_atoms ps l1 with
         | none => none
         | some ps1 => prep_run max_atoms ps1 l2) := by
  intro l1
  induction l1 with
  | nil => intro l2 ps; rfl
  | cons e l1 ih =>
    intro l2 ps
    simp only [List.cons_append, prep_run]
    cases prep_step max_atoms ps e with
    | none => rfl
    | some ps1 => exact ih l2 ps1

lemma prep_run_depth (max_atoms : Nat) :
    ∀ (l : List PrepEvent) (ps ps' : PrepState),
      prep_run max_atoms ps l = some ps' → ps'.depth = ps.depth := by
  intro l
  induction l with
  | nil =>
    intro ps ps' h
    rw [prep_run] at h
    cases h
    rfl
  | cons e l ih =>
    intro ps ps' h
    rw [prep_run] at h
    cases hstep : prep_step max_atoms ps e with
    | none => rw [hstep] at h; cases h
    | some ps1 =>
      rw [hstep] at h
      rw [ih ps1 ps' h, prep_step_depth max_atoms ps e ps1 hstep]

/-- Every prefix of a successful compilation run succeeds, preserving the
stack depth. -/
lemma prep_run_take (max_atoms : Nat) :
    ∀ (l : List PrepEvent) (ps ps' : PrepState),
      prep_run max_atoms ps l = some ps' →
      ∀ n, ∃ psI, prep_run max_atoms ps (l.take n) = some psI ∧ psI.depth = ps.depth := by
  intro l
  induction l with
  | nil =>
    intro ps ps' h n
    exact ⟨ps, by simp [prep_run], rfl⟩
  | cons e l ih =>
    intro ps ps' h n
    cases n with
    | zero => exact ⟨ps, by simp [prep_run], rfl⟩
    | succ n =>
      rw [prep_run] at h
      cases hstep : prep_step max_atoms ps e with
      | none => rw [hstep] at h; cases h
      | some ps1 =>
        rw [hstep] at h
        obtain ⟨psI, hrun, hdep⟩ := ih ps1 ps' h n
        refine ⟨psI, ?_, ?_⟩
        · rw [List.take_succ_cons, prep_run, hstep]
          exact hrun
        · rw [hdep, prep_step_depth max_atoms ps e ps1 hstep]

/-- Processing the `<rule>` events of one state block: each rule is
allocated the next fresh atom and appended at the tail of state `sid`'s
chain, so the chain grows by the consecutive atoms
`List.range' ps.nextRid rs.length`, in event order. -/
lemma prep_rules_loop (max_atoms sid : Nat) :
    ∀ (rs : List RuleAttrs) (ps : PrepState) (done : List Nat),
      TailInv ps sid done →
      ChainIs ps.rules ((ps.states sid).xrbs_first_rule) done →
      done.Nodup →
      (∀ x ∈ done, x < ps.nextRid) →
      0 < ps.nextRid →
      ∃ ps',
        prep_run max_atoms ps
          (rs.map (fun r => .openRule r.tag r.action r.newState r.useTag)) = some ps' ∧
        ps'.nextRid = ps.nextRid + rs.length ∧
        ps'.depth = ps.depth ∧
        (∀ s, s ≠ sid → ps'.states s = ps.states s) ∧
        (∀ r, r < ps.nextRid → r ∉ done → ps'.rules r = ps.rules r) ∧
        ChainIs ps'.rules ((ps'.states sid).xrbs_first_rule)
          (done ++ List.range' ps.nextRid rs.length) ∧
        TailInv ps' sid (done ++ List.range' ps.nextRid rs.length) ∧
        (done ++ List.range' ps.nextRid rs.length).Nodup ∧
        (∀ x ∈ done ++ List.range' ps.nextRid rs.length, x < ps'.nextRid) := by
  intro rs
  induction rs with
  | nil =>
    intro ps done h1 h2 h3 h4 h5
    exact ⟨ps, rfl, by simp, rfl, fun _ _ => rfl, fun _ _ _ => rfl,
      by simpa using h2, by simpa using h1, by simpa using h3, by simpa using h4⟩
  | cons ra rs ih =>
    intro ps done h1 h2 h3 h4 h5
    cases hL : done.getLast? with
    | none =>
      have hdone : done = [] := List.getLast?_eq_none_iff.mp hL
      subst hdone
      have hnp : ps.nextp = some (.stateFirst sid) := by
        simpa only [TailInv, List.getLast?] using h1
      obtain ⟨ps1, hstep, hnrid, hdep, hnp1, hrules, hnext0, hstates, hfirst⟩ :=
        prep_step_openRule_stateFirst max_atoms ps ra.tag ra.action ra.newState ra.useTag
          sid hnp
      have h1' : TailInv ps1 sid [ps.nextRid] := by
        have hg : ([ps.nextRid] : List Nat).getLast? = some ps.nextRid := rfl
        simp only [TailInv, hg]
        exact hnp1
      have h2' : ChainIs ps1.rules ((ps1.states sid).xrbs_first_rule) [ps.nextRid] := by
        rw [hfirst]
        exact ChainIs.cons (by omega) (by rw [hnext0]; exact ChainIs.nil)
      obtain ⟨ps2, hrun2, hnr2, hdep2, hst2, hru2, hchain2, htail2, hnodup2, hbound2⟩ :=
        ih ps1 [ps.nextRid] h1' h2' (by simp)
          (by intro x hx; simp at hx; omega) (by omega)
      refine ⟨ps2, ?_, ?_, ?_, ?_, ?_, ?_, ?_, ?_, ?_⟩
      · rw [List.map_cons, prep_run, hstep]
        exact hrun2
      · rw [hnr2, hnrid]; simp; omega
      · rw [hdep2, hdep]
      · intro s hs
        rw [hst2 s hs, hstates s hs]
      · intro r hr _
        rw [hru2 r (by omega) (by simp; omega), hrules r (by omega)]
      · have : List.range' ps.nextRid (rs.length + 1) =
            ps.nextRid :: List.range' (ps.nextRid + 1) rs.length := rfl
        simpa [this, hnrid] using hchain2
      · have : List.range' ps.nextRid (rs.length + 1) =
            ps.nextRid :: List.range' (ps.nextRid + 1) rs.length := rfl
        simpa [TailInv, this, hnrid] using htail2
      · have : List.range' ps.nextRid (rs.length + 1) =
            ps.nextRid :: List.range' (ps.nextRid + 1) rs.length := rfl
        simpa [this, hnrid] using hnodup2
      · have : List.range' ps.nextRid (rs.length + 1) =
            ps.nextRid :: List.range' (ps.nextRid + 1) rs.length := rfl
        intro x hx
        apply hbound2
        simpa [this, hnrid] using hx
    | some r0 =>
      have hnp : ps.nextp = some (.ruleNext r0) := by
        simpa only [TailInv, hL] using h1
      have hr0mem : r0 ∈ done := List.mem_of_mem_getLast? hL
      have hr0lt : r0 < ps.nextRid := h4 r0 hr0mem
      obtain ⟨ps1, hstep, hnrid, hdep, hnp1, hrules, hnext0, hr0next, hstates⟩ :=
        prep_step_openRule_ruleNext max_atoms ps ra.tag ra.action ra.newState ra.useTag
          r0 hnp (by omega)
      have hfreshnotin : ps.nextRid ∉ done := by
        intro hmem
        have := h4 _ hmem
        omega
      have hchain1 : ChainIs ps1.rules ((ps1.states sid).xrbs_first_rule)
          (done ++ [ps.nextRid]) := by
        rw [hstates]
        refine ChainIs_append h2 h3 hL ?_ hr0next hnext0 (by omega)
        intro x hx hxne
        rw [hrules x (by have := h4 x hx; omega) hxne]
      have h1' : TailInv ps1 sid (done ++ [ps.nextRid]) := by
        simp only [TailInv, List.getLast?_concat]
        rw [hnp1]
      have hnodup1 : (done ++ [ps.nextRid]).Nodup := by
        rw [List.nodup_append]
        refine ⟨h3, by simp, ?_⟩
        intro x hx hx'
        simp at hx'
        subst hx'
        exact hfreshnotin hx
      obtain ⟨ps2, hrun2, hnr2, hdep2, hst2, hru2, hchain2, htail2, hnodup2, hbound2⟩ :=
        ih ps1 (done ++ [ps.nextRid]) h1' hchain1 hnodup1
          (by
            intro x hx
            rw [hnrid]
            rcases List.mem_append.mp hx with hx | hx
            · have := h4 x hx; omega
            · simp at hx; omega)
          (by omega)
      have hlistalg : (done ++ [ps.nextRid]) ++ List.range' ps1.nextRid rs.length =
          done ++ List.range' ps.nextRid (rs.length + 1) := by
        rw [List.append_assoc, hnrid]
        rfl
      refine ⟨ps2, ?_, ?_, ?_, ?_, ?_, ?_, ?_, ?_, ?_⟩
      · rw [List.map_cons, prep_run, hstep]
        exact hrun2
      · rw [hnr2, hnrid]; simp; omega
      · rw [hdep2, hdep]
      · intro s hs
        rw [hst2 s hs, hstates]
      · intro r hr hrd
        have hrne : r ≠ r0 := by
          intro h; subst h; exact hrd hr0mem
        rw [hru2 r (by omega) (by simp [List.mem_append]; exact ⟨fun h => hrd h, by omega⟩),
          hrules r (by omega) hrne]
      · simp only [List.length_cons]
        rw [← hlistalg]
        exact hchain2
      · simp only [List.length_cons]
        rw [TailInv, ← hlistalg]
        rw [TailInv] at htail2
        exact htail2
      · simp only [List.length_cons]
        rw [← hlistalg]
        exact hnodup2
      · intro x hx
        apply hbound2
        rw [hlistalg]
        exact hx

/-- Processing a sequence of state blocks: each block's state record ends
up with a rule chain of exactly the consecutive atoms allocated for its
`<rule>` children, in document order. -/
lemma prep_blocks_loop (max_atoms : Nat) :
    ∀ (blocks : List StateBlock) (ps : PrepState),
      0 < ps.nextRid →
      (∀ b ∈ blocks, b.sid ≤ max_atoms) →
      blocks.Pairwise (fun a b => a.sid ≠ b.sid) →
      ∃ ps',
        prep_run max_atoms ps ((blocks.map blockEvents).flatten) = some ps' ∧
        ps'.depth = ps.depth ∧
        ps.nextRid ≤ ps'.nextRid ∧
        (∀ s, (∀ b ∈ blocks, s ≠ b.sid) → ps'.states s = ps.states s) ∧
        (∀ r, r < ps.nextRid → ps'.rules r = ps.rules r) ∧
        0 < ps'.nextRid ∧
        (∀ j (hj : j < blocks.length),
          ChainIs ps'.rules ((ps'.states (blocks[j].sid)).xrbs_first_rule)
            (List.range'
              (ps.nextRid + (((blocks.take j).map (fun b => b.rules.length)).sum))
              (blocks[j].rules.length))) := by
  intro blocks
  induction blocks with
  | nil =>
    intro ps h1 h2 h3
    exact ⟨ps, rfl, rfl, Nat.le_refl _, fun _ _ => rfl, fun _ _ => rfl, h1,
      by intro j hj; simp at hj⟩
  | cons b bs ih =>
    intro ps h1 h2 h3
    have hsb : b.sid ≤ max_atoms := h2 b (by simp)
    have hstep1 := prep_step_openState_char max_atoms ps b.sid b.action hsb
    set ps1 : PrepState :=
      { ps with
        states := Function.update ps.states b.sid ⟨0, b.action, 0⟩
        nextp := some (.stateFirst b.sid)
        maxState := max ps.maxState b.sid } with hps1
    have h1' : TailInv ps1 b.sid [] := by
      have hg : ([] : List Nat).getLast? = none := rfl
      simp only [TailInv, hg, hps1]
    have h2' : ChainIs ps1.rules ((ps1.states b.sid).xrbs_first_rule) [] := by
      have : (ps1.states b.sid).xrbs_first_rule = 0 := by
        simp [hps1, Function.update_same]
      rw [this]
      exact ChainIs.nil
    obtain ⟨ps2, hrun2, hnr2, hdep2, hst2, hru2, hchain2, _, _, _⟩ :=
      prep_rules_loop max_atoms b.sid b.rules ps1 [] h1' h2' (by simp) (by simp)
        (by simpa [hps1] using h1)
    have hps1nr : ps1.nextRid = ps.nextRid := rfl
    obtain ⟨ps', hrun3, hdep3, hle3, hst3, hru3, hpos3, hchains3⟩ :=
      ih ps2 (by omega) (fun b' hb' => h2 b' (by simp [hb']))
        (List.pairwise_cons.mp h3).2
    have hbsid : ∀ b' ∈ bs, b.sid ≠ b'.sid := (List.pairwise_cons.mp h3).1
    refine ⟨ps', ?_, ?_, ?_, ?_, ?_, hpos3, ?_⟩
    · simp only [List.map_cons, List.flatten_cons, blockEvents, List.cons_append]
      simp only [prep_run, hstep1]
      rw [prep_run_append]
      simp only [hrun2]
      exact hrun3
    · rw [hdep3, hdep2]
    · omega
    · intro s hs
      have hsb' : s ≠ b.sid := hs b (by simp)
      rw [hst3 s (fun b' hb' => hs b' (by simp [hb'])), hst2 s hsb']
      simp [hps1, Function.update_noteq hsb']
    · intro r hr
      rw [hru3 r (by omega), hru2 r (by omega) (by simp)]
    · intro j hj
      cases j with
      | zero =>
        simp only [List.getElem_cons_zero, List.take_zero, List.map_nil, List.sum_nil,
          Nat.add_zero]
        have hchain2' := hchain2
        simp only [List.nil_append, hps1nr] at hchain2'
        have hstpres : ps'.states b.sid = ps2.states b.sid := hst3 b.sid hbsid
        rw [hstpres]
        refine ChainIs_congr hchain2' ?_
        intro x hx
        have hxb := List.mem_range'.mp hx
        obtain ⟨i, hi, hxeq⟩ := hxb
        rw [hru3 x (by omega)]
      | succ j' =>
        have hj' : j' < bs.length := by simpa using hj
        have := hchains3 j' hj'
        simp only [List.getElem_cons_succ, List.take_succ_cons, List.map_cons,
          List.sum_cons]
        have harith : ps.nextRid + (b.rules.length +
            ((bs.take j').map (fun b => b.rules.length)).sum) =
            ps2.nextRid + ((bs.take j').map (fun b => b.rules.length)).sum := by
          rw [hnr2, hps1nr]
          omega
        rw [harith]
        exact this

/-- **C7.** During rulebook compilation, every `<rule>` child of a
`<state>` element allocates a fresh rule record and is appended at the
tail of that state's rule list via the moving tail pointer: for every
script (state blocks with distinct, in-range ids), compilation succeeds
and each state's chain — its `xrbs_first_rule` field followed by the
`xr_next` links — is exactly the consecutively allocated rule atoms of its
`<rule>` children, in the order they appear in the script; and the
in-compilation stack depth never exceeds `XI_DEPTH_MAX_RULES = 4` at any
point of the run. -/
theorem claim_C7_rule_list_order (blocks : List StateBlock) (max_atoms : Nat)
    (hsid : ∀ b ∈ blocks, 1 ≤ b.sid ∧ b.sid ≤ max_atoms)
    (hdist : blocks.Pairwise (fun a b => a.sid ≠ b.sid)) :
    ∃ ps,
      prep_run max_atoms prep_init (scriptEvents blocks) = some ps ∧
      (∀ j (hj : j < blocks.length),
        ChainIs ps.rules ((ps.states (blocks[j].sid)).xrbs_first_rule)
          (List.range' (1 + (((blocks.take j).map (fun b => b.rules.length)).sum))
            (blocks[j].rules.length))) ∧
      (∀ n, ∃ psI,
        prep_run max_atoms prep_init ((scriptEvents blocks).take n) = some psI ∧
        psI.depth ≤ XI_DEPTH_MAX_RULES) := by
  obtain ⟨ps, hrun, hdep, hle, hst, hru, hpos, hchains⟩ :=
    prep_blocks_loop max_atoms blocks prep_init (by simp [prep_init])
      (fun b hb => (hsid b hb).2) hdist
  have hfull : prep_run max_atoms prep_init (scriptEvents blocks) = some ps := by
    rw [scriptEvents, prep_run]
    simp only [prep_step]
    exact hrun
  refine ⟨ps, hfull, ?_, ?_⟩
  · intro j hj
    have h := hchains j hj
    have : prep_init.nextRid = 1 := rfl
    rw [this, Nat.add_comm 1] at h
    rw [Nat.add_comm 1]
    exact h
  · intro n
    obtain ⟨psI, hrunI, hdepI⟩ := prep_run_take max_atoms _ _ _ hfull n
    refine ⟨psI, hrunI, ?_⟩
    rw [hdepI]
    decide

/-- Witness for C7 on a concrete two-state script: state 1 with two rules
and state 2 with one rule. -/
theorem claim_C7_rule_list_order_witness :
    ((∀ b ∈ [(⟨1, 1, [⟨5, some 2, some 2, none⟩, ⟨6, none, none, some 9⟩]⟩ : StateBlock),
        (⟨2, 2, [⟨7, some 4, none, none⟩]⟩ : StateBlock)],
      1 ≤ b.sid ∧ b.sid ≤ 8) ∧
     ([(⟨1, 1, [⟨5, some 2, some 2, none⟩, ⟨6, none, none, some 9⟩]⟩ : StateBlock),
        (⟨2, 2, [⟨7, some 4, none, none⟩]⟩ : StateBlock)].Pairwise
          (fun a b => a.sid ≠ b.sid))) ∧
    (∃ ps,
      prep_run 8 prep_init
        (scriptEvents
          [(⟨1, 1, [⟨5, some 2, some 2, none⟩, ⟨6, none, none, some 9⟩]⟩ : StateBlock),
           (⟨2, 2, [⟨7, some 4, none, none⟩]⟩ : StateBlock)]) = some ps ∧
      (∀ j (hj : j <
          [(⟨1, 1, [⟨5, some 2, some 2, none⟩, ⟨6, none, none, some 9⟩]⟩ : StateBlock),
           (⟨2, 2, [⟨7, some 4, none, none⟩]⟩ : StateBlock)].length),
        ChainIs ps.rules
          ((ps.states
            ([(⟨1, 1, [⟨5, some 2, some 2, none⟩, ⟨6, none, none, some 9⟩]⟩ : StateBlock),
              (⟨2, 2, [⟨7, some 4, none, none⟩]⟩ : StateBlock)][j]).sid).xrbs_first_rule)
          (List.range'
            (1 + ((([(⟨1, 1, [⟨5, some 2, some 2, none⟩, ⟨6, none, none, some 9⟩]⟩ : StateBlock),
                (⟨2, 2, [⟨7, some 4, none, none⟩]⟩ : StateBlock)].take j).map
                  (fun b => b.rules.length)).sum))
            ([(⟨1, 1, [⟨5, some 2, some 2, none⟩, ⟨6, none, none, some 9⟩]⟩ : StateBlock),
              (⟨2, 2, [⟨7, some 4, none, none⟩]⟩ : StateBlock)][j]).rules.length)) ∧
      (∀ n, ∃ psI,
        prep_run 8 prep_init
          ((scriptEvents
            [(⟨1, 1, [⟨5, some 2, some 2, none⟩, ⟨6, none, none, some 9⟩]⟩ : StateBlock),
             (⟨2, 2, [⟨7, some 4, none, none⟩]⟩ : StateBlock)]).take n) = some psI ∧
        psI.depth ≤ XI_DEPTH_MAX_RULES)) :=
  ⟨⟨by decide, by decide⟩,
    claim_C7_rule_list_order
      [⟨1, 1, [⟨5, some 2, some 2, none⟩, ⟨6, none, none, some 9⟩]⟩,
       ⟨2, 2, [⟨7, some 4, none, none⟩]⟩] 8 (by decide) (by decide)⟩

/-- **C1.** The spec's rulebook-lookup contract ("scan the state's rule
list in order; a rule matches iff its tag bitmap has `tag_atom` set; if no
rule matches, apply the state's default action") is not what the source
implements: `xi_rulebook_find` returns the parse's default rule
unconditionally.  At the concrete rulebook `egRules`/`egBitmaps` with
state `egState` (default action 1) and a token whose tag atom 7 is set in
rule 1's bitmap (rule action 2), the spec-prescribed selection yields rule
1 and action 2, while the stub returns the default rule, whose action
differs. -/
theorem claim_C1_rulebook_find_stub_diverges :
    xi_rulebook_find egParse 7 [] [] [] = egParse.xp_default_rule ∧
    spec_rule_scan egRules egBitmaps 7 8 egState.xrbs_first_rule = some 1 ∧
    spec_selected_action egRules egBitmaps egState 7 8 = 2 ∧
    (xi_rulebook_find egParse 7 [] [] []).xr_action ≠
      spec_selected_action egRules egBitmaps egState 7 8 := by
  refine ⟨rfl, ?_, ?_, ?_⟩ <;> decide
